/-
Verification of the slice-clipping, centered-resize, crop-center-sampling and
affine-builder core of `monai/transforms/utils.py`, via a shallow embedding of
the Python code into Lean.

Conventions of the embedding:
 - an `NDArr` is a shape (list of axis extents) together with a total map from
   coordinate lists to element values; only coordinates that are valid for the
   shape are ever relevant;
 - Python `slice` objects are `SliceSpec`: `slice(None)` is `SliceSpec.all`,
   `slice(a, b)` is `SliceSpec.interval a b`; slice endpoints follow numpy
   semantics for non-negative in-range endpoints (`pyIdx` normalizes);
 - machine/float subtleties: `np.clip`, floor division `//` and integer
   division are modeled exactly on ℤ/ℕ; the `.astype(np.uint16)` truncation in
   `generate_pos_neg_label_crop_centers` takes the exact floor of the
   (exactly representable) float value modulo 2^16, and the subsequent
   `uint16` increment and decrement of `valid_end` also wrap modulo 2^16;
 - randomness is an explicit source: `rand k` is the value of the k-th call to
   `rand_state.rand()` and `randint k n` the value of the k-th call to
   `rand_state.randint(n)`;
 - Python exceptions are `Except String`, warnings are a returned flag.
-/
import Mathlib

set_option autoImplicit false

namespace MonaiTransforms

/-! ### SliceClipper: `copypaste_arrays` and `resize_center` -/

/-- A Python slice as used by `copypaste_arrays`: either `slice(None)` or
`slice(start, stop)` with integer endpoints. -/
inductive SliceSpec where
  | all : SliceSpec
  | interval : ℤ → ℤ → SliceSpec
  deriving DecidableEq

/-- `np.clip(x, lo, hi)`: `lo` is applied first, then `hi` (so `hi` wins when
`lo > hi`). -/
def iclip (x lo hi : ℤ) : ℤ := min (max x lo) hi

/-- The body of the per-dimension loop of `copypaste_arrays` for one dimension:
source extent `ss`, destination extent `ds`, centers `sc`/`dc` and requested
window `dim`.  `dim = 0` is falsy in Python, leaving both slices `slice(None)`.
`Int.fdiv` is Python's floor division `//`. -/
def cpDim (ss ds sc dc dim : ℤ) : SliceSpec × SliceSpec :=
  if dim ≠ 0 then
    let d1 := iclip (Int.fdiv dim 2) 0 (min sc dc)
    let d2 := iclip (Int.fdiv dim 2 + 1) 0 (min (ss - sc) (ds - dc))
    (SliceSpec.interval (sc - d1) (sc + d2), SliceSpec.interval (dc - d1) (dc + d2))
  else (SliceSpec.all, SliceSpec.all)

/-- The `zip`-driven loop of `copypaste_arrays`: stops at the shortest of the
five sequences, exactly like Python's `zip`. -/
def cpDims : List ℤ → List ℤ → List ℤ → List ℤ → List ℤ → List (SliceSpec × SliceSpec)
  | ss :: sst, ds :: dst, sc :: sct, dc :: dct, dim :: dimt =>
      cpDim ss ds sc dc dim :: cpDims sst dst sct dct dimt
  | _, _, _, _, _ => []

/-- An N-dimensional array: a shape and the element at each coordinate list. -/
structure NDArr (α : Type) where
  shape : List ℕ
  data : List ℕ → α

/-- `copypaste_arrays(src, dest, srccenter, destcenter, dims)`: the slice lists
start as `[slice(None)] * ndim` and the zipped loop overwrites a prefix of
them. -/
def copypaste_arrays {α β : Type} (src : NDArr α) (dest : NDArr β)
    (srccenter destcenter dims : List ℤ) : List SliceSpec × List SliceSpec :=
  let ps := cpDims (src.shape.map (fun n : ℕ => (n : ℤ))) (dest.shape.map (fun n : ℕ => (n : ℤ)))
    srccenter destcenter dims
  (ps.map Prod.fst ++ List.replicate (src.shape.length - ps.length) SliceSpec.all,
   ps.map Prod.snd ++ List.replicate (dest.shape.length - ps.length) SliceSpec.all)

/-- Normalize a slice endpoint against an axis of extent `n`, as numpy does:
negative endpoints count from the end, endpoints are clamped into `[0, n]`. -/
def pyIdx (n : ℕ) (x : ℤ) : ℤ :=
  if x < 0 then max 0 ((n : ℤ) + x) else min x (n : ℤ)

/-- The number of positions selected by a slice on an axis of extent `n`. -/
def sliceLen (n : ℕ) : SliceSpec → ℤ
  | SliceSpec.all => (n : ℤ)
  | SliceSpec.interval a b => max 0 (pyIdx n b - pyIdx n a)

/-- A slice is in bounds for an axis of extent `n` when its raw endpoints
already lie inside `[0, n]` (no silent clamping or wraparound happens when the
axis is indexed with it). -/
def sliceInBounds (n : ℕ) : SliceSpec → Prop
  | SliceSpec.all => True
  | SliceSpec.interval a b => 0 ≤ a ∧ a ≤ b ∧ b ≤ (n : ℤ)

/-- Membership of coordinate `i` in the positions selected by a slice on an
axis of extent `n`. -/
def memSlice (n : ℕ) (s : SliceSpec) (i : ℕ) : Bool :=
  match s with
  | SliceSpec.all => decide (i < n)
  | SliceSpec.interval a b => decide (pyIdx n a ≤ (i : ℤ)) && decide ((i : ℤ) < pyIdx n b)

/-- First selected position of a slice on an axis of extent `n`. -/
def sliceStart (n : ℕ) (s : SliceSpec) : ℕ :=
  match s with
  | SliceSpec.all => 0
  | SliceSpec.interval a _ => (pyIdx n a).toNat

/-- Pointwise membership of a coordinate list in the region selected by a list
of slices (over axes with the given extents). -/
def inRegion : List ℕ → List SliceSpec → List ℕ → Bool
  | n :: ns, s :: st, i :: it => memSlice n s i && inRegion ns st it
  | [], [], [] => true
  | _, _, _ => false

/-- For a destination coordinate inside the destination region, the source
coordinate it is copied from under `dest[destslices] = src[srcslices]`:
per axis, the source slice start plus the offset inside the destination
slice. -/
def srcIndex : List ℕ → List ℕ → List SliceSpec → List SliceSpec → List ℕ → List ℕ
  | sn :: snt, dn :: dnt, s :: st, d :: dt, i :: it =>
      (sliceStart sn s + (i - sliceStart dn d)) :: srcIndex snt dnt st dt it
  | _, _, _, _, _ => []

/-- A coordinate list is valid for a shape when it has one in-range coordinate
per axis. -/
def validIdx : List ℕ → List ℕ → Bool
  | n :: ns, i :: it => decide (i < n) && validIdx ns it
  | [], [] => true
  | _, _ => false

/-- Extensional equality of arrays: same shape and same element at every valid
coordinate. -/
def sameArr {α : Type} (a b : NDArr α) : Prop :=
  a.shape = b.shape ∧ ∀ idx, validIdx a.shape idx = true → a.data idx = b.data idx

/-- The statement `dest[destslices] = src[srcslices]` as an array: positions in
the destination region take the corresponding source element, all others keep
the destination element. -/
def assignCopy {α : Type} (src dest : NDArr α) (ss ds : List SliceSpec) : NDArr α :=
  { shape := dest.shape,
    data := fun idx =>
      if inRegion dest.shape ds idx then
        src.data (srcIndex src.shape dest.shape ss ds idx)
      else dest.data idx }

/-- `resize_center(img, *resize_dims, fill_value)`: a zero (falsy) resize
extent reuses the image's extent; the output starts filled with `fill_value`
and the image is copied into its center with `copypaste_arrays`, both centers
being the half-shapes. -/
def resize_center {α : Type} (img : NDArr α) (resizeDims : List ℕ) (fillValue : α) :
    NDArr α :=
  let rdims := List.zipWith (fun r s => if r = 0 then s else r) resizeDims img.shape
  let dest : NDArr α := { shape := rdims, data := fun _ => fillValue }
  let halfImg := img.shape.map (fun n : ℕ => n / 2)
  let halfDest := rdims.map (fun n : ℕ => n / 2)
  let sls := copypaste_arrays img dest (halfImg.map (fun n : ℕ => (n : ℤ)))
    (halfDest.map (fun n : ℕ => (n : ℤ))) (rdims.map (fun n : ℕ => (n : ℤ)))
  assignCopy img dest sls.1 sls.2

/-- Pointwise `1 ≤ s[i] ≤ t[i]` together with equal lengths: the shapes for
which `resize_center` grows an image of shape `s` to shape `t`. -/
def dimsGrow : List ℕ → List ℕ → Bool
  | a :: s, b :: t => (decide (1 ≤ a) && decide (a ≤ b)) && dimsGrow s t
  | [], [] => true
  | _, _ => false

/-- The centered copy of an image of shape `s` inside a grown array of shape
`t`: per axis, coordinates in `[t/2 - s/2, t/2 - s/2 + s)`. -/
def inCenteredRegion : List ℕ → List ℕ → List ℕ → Bool
  | a :: s, b :: t, i :: idx =>
      (decide (b / 2 - a / 2 ≤ i) && decide (i < b / 2 - a / 2 + a)) &&
        inCenteredRegion s t idx
  | [], [], [] => true
  | _, _, _ => false

/-- Pointwise map from a coordinate of the original image (shape `s`) to the
corresponding coordinate of the grown array (shape `t`): add the per-axis
offset `t/2 - s/2` of the centered copy. -/
def addOff : List ℕ → List ℕ → List ℕ → List ℕ
  | a :: s, b :: t, i :: idx => (b / 2 - a / 2 + i) :: addOff s t idx
  | _, _, _ => []

/-- Pointwise inverse of `addOff`: map a coordinate of the grown array back to
the coordinate of the original image it was copied from. -/
def shiftIdx : List ℕ → List ℕ → List ℕ → List ℕ
  | a :: s, b :: t, i :: idx => (i - (b / 2 - a / 2)) :: shiftIdx s t idx
  | _, _, _ => []

/-! ### CenterSampler: `generate_pos_neg_label_crop_centers`

The label is a `(C, *spatial)` array, modeled by its channel count, spatial
shape, and the value at channel `c` and flattened (C-order) spatial position
`j`.  The optional `image` is modeled the same way. -/

/-- `np.any(label, axis=0).ravel()` at flat spatial position `j`: some channel
is nonzero there. -/
def labelFlatMask (channels : ℕ) (label : ℕ → ℕ → ℚ) (j : ℕ) : Bool :=
  (List.range channels).any fun c => decide (label c j ≠ 0)

/-- `np.nonzero(label_flat)[0]`: the (ascending) flat positions of foreground
voxels, over `n` flat spatial positions. -/
def fgIndicesOf (channels n : ℕ) (label : ℕ → ℕ → ℚ) : List ℕ :=
  (List.range n).filter (labelFlatMask channels label)

/-- Background flat positions: where the image mask (if an image is supplied)
holds and the label does not; without an image, simply the non-foreground
positions. -/
def bgIndicesOf (channels n : ℕ) (label : ℕ → ℕ → ℚ)
    (image : Option (ℕ × (ℕ → ℕ → ℚ))) (imageThreshold : ℚ) : List ℕ :=
  match image with
  | some (ic, im) =>
      (List.range n).filter fun j =>
        ((List.range ic).any fun c => decide (imageThreshold < im c j)) &&
          !(labelFlatMask channels label j)
  | none => (List.range n).filter fun j => !(labelFlatMask channels label j)

/-- `valid_start = np.floor_divide(size, 2)`. -/
def validStartOf (size : List ℕ) : List ℕ := size.map (fun n : ℕ => n / 2)

/-- `valid_end = (max_size + 1 - size / 2).astype(np.uint16)` before the
degenerate-range bump: the float value `max_size + 1 - size/2` is exactly
representable, its floor is `(2*max_size + 2 - size) / 2`, and the cast to
`np.uint16` truncates it modulo `2^16`. -/
def validEndOf (spatialShape size : List ℕ) : List ℕ :=
  (spatialShape.zip size).map fun p => (2 * p.1 + 2 - p.2) / 2 % 65536

/-- The in-place loop bumping `valid_end[i]` by one where it equals
`valid_start[i]`; the increment is on the `uint16` array and wraps. -/
def bumpEnds (vs ve : List ℕ) : List ℕ :=
  List.zipWith (fun s e => if s = e then (e + 1) % 65536 else e) vs ve

/-- `np.unravel_index` in C order for the given shape (defined for all flat
indices; numpy's bounds check is irrelevant at the in-range indices used). -/
def unravel : List ℕ → ℕ → List ℕ
  | [], _ => []
  | d :: ds, f => (f / ds.prod) % d :: unravel ds (f % ds.prod)

/-- `fg_indicies if rand_state.rand() < pos_ratio else bg_indicies`. -/
def chooseSet (ratio : ℚ) (fg bg : List ℕ) (r : ℚ) : List ℕ :=
  if r < ratio then fg else bg

/-- The correction loop shifting a drawn center into the valid range: both
comparisons test the original coordinate `c`, exactly as in the source, and
`valid_end[i] - 1` is `uint16` subtraction, which wraps to 65535 when
`valid_end[i] = 0` (so it is `(ve + 65535) % 65536` on values below `2^16`). -/
def clampCenter : List ℕ → List ℕ → List ℕ → List ℕ
  | c :: cs, vs :: vss, ve :: ves =>
      (if ve ≤ c then (ve + 65535) % 65536 else if c < vs then vs else c) ::
        clampCenter cs vss ves
  | _, _, _ => []

/-- The sampling loop: for draw `k`, pick foreground when `rand k < ratio`,
draw a flat index uniformly via `randint`, unravel it against the full label
shape, drop the channel coordinate, and clamp into the valid range. -/
def sampleCenters (numSamples : ℕ) (ratio : ℚ) (fg bg : List ℕ)
    (labelChannels : ℕ) (spatialShape vs ve : List ℕ)
    (rand : ℕ → ℚ) (randint : ℕ → ℕ → ℕ) : List (List ℕ) :=
  (List.range numSamples).map fun k =>
    let idxs := chooseSet ratio fg bg (rand k)
    let flat := idxs.getD (randint k idxs.length) 0
    let center := (unravel (labelChannels :: spatialShape) flat).tail
    clampCenter center vs ve

/-- `generate_pos_neg_label_crop_centers(label, size, num_samples, pos_ratio,
image, image_threshold, rand_state)`.  The two leading `assert`s and the
`ValueError` are `Except.error`; the emitted warning is the `Bool` of the
result. -/
def generate_pos_neg_label_crop_centers (labelChannels : ℕ) (spatialShape : List ℕ)
    (label : ℕ → ℕ → ℚ) (size : List ℕ) (numSamples : ℕ) (posRatio : ℚ)
    (image : Option (ℕ × (ℕ → ℕ → ℚ))) (imageThreshold : ℚ)
    (rand : ℕ → ℚ) (randint : ℕ → ℕ → ℕ) : Except String (Bool × List (List ℕ)) :=
  if size.length ≠ spatialShape.length then
    Except.error "expected size does not match label dim."
  else if ¬ ((spatialShape.zip size).all fun p => decide (p.2 ≤ p.1)) then
    Except.error "proposed roi is larger than image itself."
  else
    let vs := validStartOf size
    let ve := bumpEnds vs (validEndOf spatialShape size)
    let fg := fgIndicesOf labelChannels spatialShape.prod label
    let bg := bgIndicesOf labelChannels spatialShape.prod label image imageThreshold
    if fg.isEmpty && bg.isEmpty then
      Except.error "no sampling location available."
    else
      let warned := fg.isEmpty || bg.isEmpty
      let ratio := if warned then (if fg.isEmpty then (0 : ℚ) else 1) else posRatio
      Except.ok (warned,
        sampleCenters numSamples ratio fg bg labelChannels spatialShape vs ve rand randint)

/-- From the spec's wording, `valid_start[i] = size[i] // 2`. -/
def validStartSpec (s : ℕ) : ℚ := (s / 2 : ℕ)

/-- From the spec's wording, `valid_end[i] = spatial_shape[i] + 1 - size[i] / 2`
(true division), bumped by one when it equals `valid_start[i]`. -/
def validEndSpec (ms s : ℕ) : ℚ :=
  let e : ℚ := (ms : ℚ) + 1 - (s : ℚ) / 2
  if validStartSpec s = e then e + 1 else e

/-- `Except.error`-ness, used to state when an operation raises. -/
def exceptIsError {ε α : Type} : Except ε α → Bool
  | Except.error _ => true
  | Except.ok _ => false

/-! ### AffineBuilder: `create_rotate`, `create_shear`, `create_scale`,
`create_translate`, `to_affine_nd` -/

/-- The 2D rotation returned by `create_rotate(2, radians)` for angle `θ`. -/
noncomputable def rot2d (θ : ℝ) : Matrix (Fin 3) (Fin 3) ℝ :=
  !![Real.cos θ, -Real.sin θ, 0; Real.sin θ, Real.cos θ, 0; 0, 0, 1]

/-- Elementary 3D rotation about the first axis. -/
noncomputable def rotAx1 (θ : ℝ) : Matrix (Fin 4) (Fin 4) ℝ :=
  !![1, 0, 0, 0; 0, Real.cos θ, -Real.sin θ, 0; 0, Real.sin θ, Real.cos θ, 0; 0, 0, 0, 1]

/-- Elementary 3D rotation about the second axis. -/
noncomputable def rotAx2 (θ : ℝ) : Matrix (Fin 4) (Fin 4) ℝ :=
  !![Real.cos θ, 0, Real.sin θ, 0; 0, 1, 0, 0; -Real.sin θ, 0, Real.cos θ, 0; 0, 0, 0, 1]

/-- Elementary 3D rotation about the third axis. -/
noncomputable def rotAx3 (θ : ℝ) : Matrix (Fin 4) (Fin 4) ℝ :=
  !![Real.cos θ, -Real.sin θ, 0, 0; Real.sin θ, Real.cos θ, 0, 0; 0, 0, 1, 0; 0, 0, 0, 1]

/-- The 3D branch of `create_rotate`: `affine` starts as `None`, each of the
first three supplied angles right-multiplies the corresponding elementary
rotation, and the (possibly `None`) accumulator is returned. -/
noncomputable def rotate3_aux (radians : List ℝ) : Option (Matrix (Fin 4) (Fin 4) ℝ) :=
  match radians with
  | [] => none
  | [a] => some (rotAx1 a)
  | [a, b] => some (rotAx1 a * rotAx2 b)
  | a :: b :: c :: _ => some (rotAx1 a * rotAx2 b * rotAx3 c)

/-- `create_rotate(spatial_dims, radians)`: a 3×3 matrix for `spatial_dims=2`
with at least one angle, the (possibly `None`) 3D product for
`spatial_dims=3`, and `ValueError` otherwise — in particular `spatial_dims=2`
with no angle falls through to the `raise`. -/
noncomputable def create_rotate (spatial_dims : ℤ) (radians : List ℝ) :
    Except String (Matrix (Fin 3) (Fin 3) ℝ ⊕ Option (Matrix (Fin 4) (Fin 4) ℝ)) :=
  if spatial_dims = 2 ∧ 1 ≤ radians.length then
    Except.ok (Sum.inl (rot2d (radians.getD 0 0)))
  else if spatial_dims = 3 then
    Except.ok (Sum.inr (rotate3_aux radians))
  else
    Except.error "create_rotate got unsupported spatial_dims or radians."

/-- From the spec's wording: the product of the elementary rotations about
axes 1, 2, 3 in that order, using as many angles as supplied, each missing
trailing rotation contributing the identity matrix. -/
noncomputable def rotationsProductSpec (radians : List ℝ) : Matrix (Fin 4) (Fin 4) ℝ :=
  (if 1 ≤ radians.length then rotAx1 (radians.getD 0 0) else 1) *
    (if 2 ≤ radians.length then rotAx2 (radians.getD 1 0) else 1) *
    (if 3 ≤ radians.length then rotAx3 (radians.getD 2 0) else 1)

/-- `create_shear(spatial_dims, coefs)`: coefficients are right-padded with
zeros (`getD _ 0`), extra ones ignored; other ranks raise
`NotImplementedError`. -/
def create_shear (spatial_dims : ℤ) (coefs : List ℝ) :
    Except String (Matrix (Fin 3) (Fin 3) ℝ ⊕ Matrix (Fin 4) (Fin 4) ℝ) :=
  if spatial_dims = 2 then
    Except.ok (Sum.inl !![1, coefs.getD 0 0, 0; coefs.getD 1 0, 1, 0; 0, 0, 1])
  else if spatial_dims = 3 then
    Except.ok (Sum.inr !![1, coefs.getD 0 0, coefs.getD 1 0, 0;
      coefs.getD 2 0, 1, coefs.getD 3 0, 0;
      coefs.getD 4 0, coefs.getD 5 0, 1, 0;
      0, 0, 0, 1])
  else
    Except.error "NotImplementedError"

/-- `create_scale(spatial_dims, scaling_factor)`:
`np.diag(scaling_factor[:spatial_dims] + [1.])` with the factor list padded
with ones up to `spatial_dims`. -/
def create_scale (spatial_dims : ℕ) (scaling_factor : List ℝ) :
    Matrix (Fin (spatial_dims + 1)) (Fin (spatial_dims + 1)) ℝ :=
  Matrix.diagonal fun i => if (i : ℕ) < spatial_dims then scaling_factor.getD i 1 else 1

/-- `create_translate(spatial_dims, shift)`: the identity with the first
`min(len(shift), spatial_dims)` entries of the last column taken from `shift`
(the remaining entries of the last column stay 0, which `getD _ 0` yields). -/
def create_translate (spatial_dims : ℕ) (shift : List ℝ) :
    Matrix (Fin (spatial_dims + 1)) (Fin (spatial_dims + 1)) ℝ :=
  Matrix.of fun i j =>
    if (i : ℕ) < spatial_dims ∧ (j : ℕ) = spatial_dims then shift.getD i 0
    else if (i : ℕ) = (j : ℕ) then 1 else 0

/-- `to_affine_nd(r, affine)` for an integer rank `r ≥ 0` and a 2D input
`affine` of size `(m+1) × (m+1)`: an `(r+1) × (r+1)` identity scaffold whose
top-left `d×d` block (`d = min(r, m)`) and top `d` entries of the last column
are copied from `affine`. -/
def to_affine_nd (r m : ℕ) (affine : Matrix (Fin (m + 1)) (Fin (m + 1)) ℝ) :
    Matrix (Fin (r + 1)) (Fin (r + 1)) ℝ :=
  Matrix.of fun i j =>
    if h : (i : ℕ) < min r m ∧ (j : ℕ) < min r m then
      affine ⟨i, Nat.lt_succ_of_lt (lt_of_lt_of_le h.1 (min_le_right r m))⟩
        ⟨j, Nat.lt_succ_of_lt (lt_of_lt_of_le h.2 (min_le_right r m))⟩
    else if h2 : (i : ℕ) < min r m ∧ (j : ℕ) = r then
      affine ⟨i, Nat.lt_succ_of_lt (lt_of_lt_of_le h2.1 (min_le_right r m))⟩
        ⟨m, Nat.lt_succ_self m⟩
    else if (i : ℕ) = (j : ℕ) then 1 else 0

/-- The affine invariant of the builder outputs: the bottom row is
`[0, ..., 0, 1]`. -/
def lastRowOne {n : ℕ} (M : Matrix (Fin (n + 1)) (Fin (n + 1)) ℝ) : Prop :=
  ∀ j, M (Fin.last n) j = if j = Fin.last n then 1 else 0

/-! ### Helper lemmas about `cpDims` and list access -/

lemma cpDims_length (a b c d e : List ℤ) (hb : b.length = a.length)
    (hc : c.length = a.length) (hd : d.length = a.length) :
    (cpDims a b c d e).length = min a.length e.length := by
  induction a generalizing b c d e with
  | nil =>
    rcases b with _ | ⟨x, b⟩ <;> rcases c with _ | _ <;> rcases d with _ | _ <;>
      rcases e with _ | _ <;> simp_all [cpDims]
  | cons x xs ih =>
    rcases b with _ | ⟨y, b⟩
    · simp at hb
    rcases c with _ | ⟨z, c⟩
    · simp at hc
    rcases d with _ | ⟨w, d⟩
    · simp at hd
    rcases e with _ | ⟨v, e⟩
    · simp [cpDims]
    simp only [cpDims, List.length_cons] at *
    rw [ih b c d e (by omega) (by omega) (by omega)]
    omega

lemma cpDims_getD (a b c d e : List ℤ) (i : ℕ) (hi : i < (cpDims a b c d e).length) :
    (cpDims a b c d e).getD i (SliceSpec.all, SliceSpec.all) =
      cpDim (a.getD i 0) (b.getD i 0) (c.getD i 0) (d.getD i 0) (e.getD i 0) := by
  induction a generalizing b c d e i with
  | nil => simp [cpDims] at hi
  | cons x xs ih =>
    rcases b with _ | ⟨y, b⟩
    · simp [cpDims] at hi
    rcases c with _ | ⟨z, c⟩
    · simp [cpDims] at hi
    rcases d with _ | ⟨w, d⟩
    · simp [cpDims] at hi
    rcases e with _ | ⟨v, e⟩
    · simp [cpDims] at hi
    rcases i with _ | i
    · simp [cpDims]
    · simp only [cpDims, List.length_cons, Nat.add_lt_add_iff_right] at hi
      simpa [cpDims] using ih b c d e i hi

lemma getD_map_cast (l : List ℕ) (i : ℕ) :
    (l.map (fun n : ℕ => (n : ℤ))).getD i 0 = ((l.getD i 0 : ℕ) : ℤ) := by
  induction l generalizing i with
  | nil => simp
  | cons x xs ih =>
    rcases i with _ | i
    · simp
    · simp only [List.map_cons, List.getD_cons_succ]; exact ih i

lemma getD_map_fst (l : List (SliceSpec × SliceSpec)) (i : ℕ) (h : i < l.length) :
    (l.map Prod.fst).getD i SliceSpec.all = (l.getD i (SliceSpec.all, SliceSpec.all)).1 := by
  rw [List.getD_eq_getElem _ _ (by simpa using h), List.getD_eq_getElem _ _ h,
    List.getElem_map]

lemma getD_map_snd (l : List (SliceSpec × SliceSpec)) (i : ℕ) (h : i < l.length) :
    (l.map Prod.snd).getD i SliceSpec.all = (l.getD i (SliceSpec.all, SliceSpec.all)).2 := by
  rw [List.getD_eq_getElem _ _ (by simpa using h), List.getD_eq_getElem _ _ h,
    List.getElem_map]

lemma getD_replicate_all (k i : ℕ) :
    (List.replicate k SliceSpec.all).getD i SliceSpec.all = SliceSpec.all := by
  induction k generalizing i with
  | zero => simp
  | succ k ih => rcases i with _ | i <;> simp [List.replicate_succ, ih]

lemma getD_pad (l : List SliceSpec) (k i : ℕ) (h : l.length ≤ i) :
    (l ++ List.replicate k SliceSpec.all).getD i SliceSpec.all = SliceSpec.all := by
  induction l generalizing i with
  | nil => simp [getD_replicate_all k i]
  | cons x xs ih =>
    rcases i with _ | i
    · simp at h
    · simpa using ih i (by simpa using h)

lemma pyIdx_of_mem (n : ℕ) (x : ℤ) (h0 : 0 ≤ x) (h1 : x ≤ (n : ℤ)) : pyIdx n x = x := by
  unfold pyIdx; split_ifs <;> omega

/-- Per-dimension safety of the clipped copy window: with both centers in
bounds and a truthy `dim`, the two produced slices share a common width
`d1 + d2` and stay inside their arrays. -/
lemma cpDim_safe {ss ds sc dc dim : ℤ} (h1 : 0 ≤ sc) (h2 : sc < ss) (h3 : 0 ≤ dc)
    (h4 : dc < ds) (hdim : dim ≠ 0) :
    ∃ d1 d2 : ℤ, cpDim ss ds sc dc dim =
        (SliceSpec.interval (sc - d1) (sc + d2), SliceSpec.interval (dc - d1) (dc + d2)) ∧
      0 ≤ d1 ∧ d1 ≤ sc ∧ d1 ≤ dc ∧ 0 ≤ d2 ∧ d2 ≤ ss - sc ∧ d2 ≤ ds - dc := by
  refine ⟨iclip (Int.fdiv dim 2) 0 (min sc dc),
    iclip (Int.fdiv dim 2 + 1) 0 (min (ss - sc) (ds - dc)), ?_, ?_, ?_, ?_, ?_, ?_, ?_⟩
  · simp only [cpDim, if_pos hdim]
  all_goals (unfold iclip; omega)

/-- Claim C1 (amended): for arrays of equal rank and centers inside the two
arrays, every slice produced by `copypaste_arrays` stays inside its array, and
in every dimension whose `dims` entry is truthy (nonzero) the source and
destination slices select the same number of positions.  (For a falsy `dims`
entry both slices are `slice(None)`, whose lengths are the two — possibly
different — axis extents; see the counterexample for the original claim.) -/
theorem copypaste_arrays_slices_safe {α β : Type} (src : NDArr α) (dest : NDArr β)
    (sc dc dims : List ℤ)
    (hrank : dest.shape.length = src.shape.length)
    (hscl : sc.length = src.shape.length)
    (hdcl : dc.length = dest.shape.length)
    (hsc : ∀ j, j < sc.length →
      0 ≤ sc.getD j 0 ∧ sc.getD j 0 < (src.shape.getD j 0 : ℤ))
    (hdc : ∀ j, j < dc.length →
      0 ≤ dc.getD j 0 ∧ dc.getD j 0 < (dest.shape.getD j 0 : ℤ))
    (i : ℕ) (hi : i < src.shape.length) :
    sliceInBounds (src.shape.getD i 0)
        ((copypaste_arrays src dest sc dc dims).1.getD i SliceSpec.all) ∧
    sliceInBounds (dest.shape.getD i 0)
        ((copypaste_arrays src dest sc dc dims).2.getD i SliceSpec.all) ∧
    (i < dims.length → dims.getD i 0 ≠ 0 →
      sliceLen (src.shape.getD i 0)
          ((copypaste_arrays src dest sc dc dims).1.getD i SliceSpec.all) =
        sliceLen (dest.shape.getD i 0)
          ((copypaste_arrays src dest sc dc dims).2.getD i SliceSpec.all)) := by
  have hps : (cpDims (src.shape.map (fun n : ℕ => (n : ℤ))) (dest.shape.map (fun n : ℕ => (n : ℤ)))
      sc dc dims).length = min src.shape.length dims.length := by
    rw [cpDims_length] <;> simp only [List.length_map] <;> omega
  have hfst : (copypaste_arrays src dest sc dc dims).1 =
      (cpDims (src.shape.map (fun n : ℕ => (n : ℤ))) (dest.shape.map (fun n : ℕ => (n : ℤ)))
        sc dc dims).map Prod.fst ++
      List.replicate (src.shape.length - (cpDims (src.shape.map (fun n : ℕ => (n : ℤ)))
        (dest.shape.map (fun n : ℕ => (n : ℤ))) sc dc dims).length) SliceSpec.all := rfl
  have hsnd : (copypaste_arrays src dest sc dc dims).2 =
      (cpDims (src.shape.map (fun n : ℕ => (n : ℤ))) (dest.shape.map (fun n : ℕ => (n : ℤ)))
        sc dc dims).map Prod.snd ++
      List.replicate (dest.shape.length - (cpDims (src.shape.map (fun n : ℕ => (n : ℤ)))
        (dest.shape.map (fun n : ℕ => (n : ℤ))) sc dc dims).length) SliceSpec.all := rfl
  by_cases hip : i < (cpDims (src.shape.map (fun n : ℕ => (n : ℤ)))
      (dest.shape.map (fun n : ℕ => (n : ℤ))) sc dc dims).length
  · have h1 : (copypaste_arrays src dest sc dc dims).1.getD i SliceSpec.all =
        (cpDim ((src.shape.getD i 0 : ℕ) : ℤ) ((dest.shape.getD i 0 : ℕ) : ℤ)
          (sc.getD i 0) (dc.getD i 0) (dims.getD i 0)).1 := by
      rw [hfst, List.getD_append _ _ _ _ (by simpa using hip), getD_map_fst _ _ hip,
        cpDims_getD _ _ _ _ _ _ hip, getD_map_cast, getD_map_cast]
    have h2 : (copypaste_arrays src dest sc dc dims).2.getD i SliceSpec.all =
        (cpDim ((src.shape.getD i 0 : ℕ) : ℤ) ((dest.shape.getD i 0 : ℕ) : ℤ)
          (sc.getD i 0) (dc.getD i 0) (dims.getD i 0)).2 := by
      rw [hsnd, List.getD_append _ _ _ _ (by simpa using hip), getD_map_snd _ _ hip,
        cpDims_getD _ _ _ _ _ _ hip, getD_map_cast, getD_map_cast]
    rw [h1, h2]
    by_cases hd0 : dims.getD i 0 = 0
    · rw [hd0]
      simp only [cpDim, ne_eq, not_true_eq_false, if_false]
      exact ⟨trivial, trivial, fun _ h => h.elim⟩
    · obtain ⟨hc1, hc2⟩ := hsc i (by omega)
      obtain ⟨hc3, hc4⟩ := hdc i (by omega)
      obtain ⟨d1, d2, heq, hb1, hb2, hb3, hb4, hb5, hb6⟩ := cpDim_safe hc1 hc2 hc3 hc4 hd0
      rw [heq]
      refine ⟨⟨by omega, by omega, by omega⟩, ⟨by omega, by omega, by omega⟩,
        fun _ _ => ?_⟩
      simp only [sliceLen]
      rw [pyIdx_of_mem _ _ (by omega) (by omega), pyIdx_of_mem _ _ (by omega) (by omega),
        pyIdx_of_mem _ _ (by omega) (by omega), pyIdx_of_mem _ _ (by omega) (by omega)]
      omega
  · have hd : ¬ i < dims.length := by omega
    have h1 : (copypaste_arrays src dest sc dc dims).1.getD i SliceSpec.all =
        SliceSpec.all := by
      rw [hfst]; exact getD_pad _ _ _ (by simpa using hip)
    have h2 : (copypaste_arrays src dest sc dc dims).2.getD i SliceSpec.all =
        SliceSpec.all := by
      rw [hsnd]; exact getD_pad _ _ _ (by simpa using hip)
    rw [h1, h2]
    exact ⟨trivial, trivial, fun h _ => absurd h hd⟩

/-- Witness for C1 at a concrete instance: `src` of shape `[3]`, `dest` of
shape `[5]`, centers `1` and `2`, window `2`. -/
theorem copypaste_arrays_slices_safe_witness :
    sliceInBounds ((3 : ℕ))
        ((copypaste_arrays (NDArr.mk [3] (fun _ => (0 : ℕ))) (NDArr.mk [5] (fun _ => (0 : ℕ)))
          [1] [2] [2]).1.getD 0 SliceSpec.all) ∧
    sliceInBounds ((5 : ℕ))
        ((copypaste_arrays (NDArr.mk [3] (fun _ => (0 : ℕ))) (NDArr.mk [5] (fun _ => (0 : ℕ)))
          [1] [2] [2]).2.getD 0 SliceSpec.all) ∧
    (0 < ([2] : List ℤ).length → ([2] : List ℤ).getD 0 0 ≠ 0 →
      sliceLen ((3 : ℕ))
          ((copypaste_arrays (NDArr.mk [3] (fun _ => (0 : ℕ))) (NDArr.mk [5] (fun _ => (0 : ℕ)))
            [1] [2] [2]).1.getD 0 SliceSpec.all) =
        sliceLen ((5 : ℕ))
          ((copypaste_arrays (NDArr.mk [3] (fun _ => (0 : ℕ))) (NDArr.mk [5] (fun _ => (0 : ℕ)))
            [1] [2] [2]).2.getD 0 SliceSpec.all)) :=
  copypaste_arrays_slices_safe (NDArr.mk [3] (fun _ => (0 : ℕ)))
    (NDArr.mk [5] (fun _ => (0 : ℕ))) [1] [2] [2] (by decide) (by decide) (by decide)
    (by
      intro j hj
      have hj0 : j = 0 := by simpa [Nat.lt_one_iff] using hj
      subst hj0; exact ⟨by decide, by decide⟩)
    (by
      intro j hj
      have hj0 : j = 0 := by simpa [Nat.lt_one_iff] using hj
      subst hj0; exact ⟨by decide, by decide⟩)
    0 (by decide)

/-- Counterexample to C1 as stated: with equal rank, in-bounds centers and a
falsy `dims` entry, the two returned `slice(None)` objects select 3 positions
in `src` but 5 in `dest`, so the per-dimension lengths are NOT always equal. -/
theorem copypaste_arrays_len_mismatch_cex :
    sliceLen (3 : ℕ)
        ((copypaste_arrays (NDArr.mk [3] (fun _ => (0 : ℕ))) (NDArr.mk [5] (fun _ => (0 : ℕ)))
          [0] [0] [0]).1.getD 0 SliceSpec.all) ≠
      sliceLen (5 : ℕ)
        ((copypaste_arrays (NDArr.mk [3] (fun _ => (0 : ℕ))) (NDArr.mk [5] (fun _ => (0 : ℕ)))
          [0] [0] [0]).2.getD 0 SliceSpec.all) := by
  decide

/-- Claim C10: `copypaste_arrays` reads only the shapes of its array arguments,
so two calls on arrays of equal shapes — whatever their element values or even
element types — return identical slice pairs.  (The embedding is purely
functional; the function performs no write to either array.) -/
theorem copypaste_arrays_shape_only {α α' β β' : Type} (src : NDArr α) (src' : NDArr α')
    (dest : NDArr β) (dest' : NDArr β') (sc dc dims : List ℤ)
    (hs : src.shape = src'.shape) (hd : dest.shape = dest'.shape) :
    copypaste_arrays src dest sc dc dims = copypaste_arrays src' dest' sc dc dims := by
  unfold copypaste_arrays
  rw [hs, hd]

/-- Witness for C10: same shapes, different element values and types. -/
theorem copypaste_arrays_shape_only_witness :
    copypaste_arrays (NDArr.mk [2, 2] (fun _ => (0 : ℕ))) (NDArr.mk [2, 3] (fun _ => (1 : ℕ)))
      [1, 1] [0, 2] [2, 0] =
    copypaste_arrays (NDArr.mk [2, 2] (fun idx => idx.sum + 5))
      (NDArr.mk [2, 3] (fun _ => true)) [1, 1] [0, 2] [2, 0] :=
  copypaste_arrays_shape_only _ _ _ _ _ _ _ rfl rfl

/-! ### Evaluation of the clipped windows in the `resize_center` configurations -/

lemma natCast_fdiv_two (n : ℕ) : Int.fdiv (n : ℤ) 2 = ((n / 2 : ℕ) : ℤ) :=
  (Int.ofNat_fdiv n 2).symm

lemma zipWith_resize_self (s : List ℕ) :
    List.zipWith (fun r s' => if r = 0 then s' else r) s s = s := by
  induction s with
  | nil => rfl
  | cons a s ih => simp [ih]

/-- In the identity configuration (`resize_center(img, *img.shape)`) every
truthy dimension yields the full-axis window on both sides. -/
lemma cpDim_self (a : ℕ) (h1 : 1 ≤ a) :
    cpDim (a : ℤ) (a : ℤ) ((a / 2 : ℕ) : ℤ) ((a / 2 : ℕ) : ℤ) (a : ℤ) =
      (SliceSpec.interval 0 (a : ℤ), SliceSpec.interval 0 (a : ℤ)) := by
  have ha : ((a : ℤ)) ≠ 0 := by exact_mod_cast Nat.one_le_iff_ne_zero.mp h1
  simp only [cpDim, if_pos ha, natCast_fdiv_two, iclip, Prod.mk.injEq,
    SliceSpec.interval.injEq]
  refine ⟨⟨?_, ?_⟩, ?_, ?_⟩ <;> omega

/-- Growing configuration: image shape `a`, destination shape `b ≥ a`,
requested window `b`: the source window is the whole image and the destination
window is the centered interval of width `a`. -/
lemma cpDim_grow (a b : ℕ) (h1 : 1 ≤ a) (h2 : a ≤ b) :
    cpDim (a : ℤ) (b : ℤ) ((a / 2 : ℕ) : ℤ) ((b / 2 : ℕ) : ℤ) (b : ℤ) =
      (SliceSpec.interval 0 (a : ℤ),
       SliceSpec.interval ((b / 2 - a / 2 : ℕ) : ℤ) ((b / 2 - a / 2 + a : ℕ) : ℤ)) := by
  have hb : ((b : ℤ)) ≠ 0 := by exact_mod_cast Nat.one_le_iff_ne_zero.mp (h1.trans h2)
  simp only [cpDim, if_pos hb, natCast_fdiv_two, iclip, Prod.mk.injEq,
    SliceSpec.interval.injEq]
  refine ⟨⟨?_, ?_⟩, ?_, ?_⟩ <;> omega

/-- Shrinking configuration: image shape `b`, destination shape `a ≤ b`,
requested window `a`: the source window is the centered interval of width `a`
and the destination window is the whole destination. -/
lemma cpDim_shrink (a b : ℕ) (h1 : 1 ≤ a) (h2 : a ≤ b) :
    cpDim (b : ℤ) (a : ℤ) ((b / 2 : ℕ) : ℤ) ((a / 2 : ℕ) : ℤ) (a : ℤ) =
      (SliceSpec.interval ((b / 2 - a / 2 : ℕ) : ℤ) ((b / 2 - a / 2 + a : ℕ) : ℤ),
       SliceSpec.interval 0 (a : ℤ)) := by
  have ha : ((a : ℤ)) ≠ 0 := by exact_mod_cast Nat.one_le_iff_ne_zero.mp h1
  simp only [cpDim, if_pos ha, natCast_fdiv_two, iclip, Prod.mk.injEq,
    SliceSpec.interval.injEq]
  refine ⟨⟨?_, ?_⟩, ?_, ?_⟩ <;> omega

lemma memSlice_interval_of (n : ℕ) (lo hi : ℤ) (i : ℕ) (h0 : 0 ≤ lo)
    (hlo : lo ≤ (n : ℤ)) (hh0 : 0 ≤ hi) (hhi : hi ≤ (n : ℤ)) :
    (memSlice n (SliceSpec.interval lo hi) i = true) ↔ (lo ≤ (i : ℤ) ∧ (i : ℤ) < hi) := by
  simp only [memSlice]
  rw [pyIdx_of_mem n lo h0 hlo, pyIdx_of_mem n hi hh0 hhi]
  simp [Bool.and_eq_true, decide_eq_true_eq]

lemma sliceStart_cast (n : ℕ) (lo hi : ℤ) (h0 : 0 ≤ lo) (hlo : lo ≤ (n : ℤ)) :
    ((sliceStart n (SliceSpec.interval lo hi) : ℕ) : ℤ) = lo := by
  simp only [sliceStart]
  rw [pyIdx_of_mem n lo h0 hlo]
  exact Int.toNat_of_nonneg h0

/-- In the identity configuration every valid coordinate is inside the
destination region and is copied from itself. -/
lemma self_slices_spec (s idx : List ℕ) (hv : validIdx s idx = true) :
    inRegion s
        ((cpDims (s.map (fun n : ℕ => (n : ℤ))) (s.map (fun n : ℕ => (n : ℤ)))
            ((s.map (fun n : ℕ => n / 2)).map (fun n : ℕ => (n : ℤ)))
            ((s.map (fun n : ℕ => n / 2)).map (fun n : ℕ => (n : ℤ)))
            (s.map (fun n : ℕ => (n : ℤ)))).map Prod.snd) idx = true ∧
    srcIndex s s
        ((cpDims (s.map (fun n : ℕ => (n : ℤ))) (s.map (fun n : ℕ => (n : ℤ)))
            ((s.map (fun n : ℕ => n / 2)).map (fun n : ℕ => (n : ℤ)))
            ((s.map (fun n : ℕ => n / 2)).map (fun n : ℕ => (n : ℤ)))
            (s.map (fun n : ℕ => (n : ℤ)))).map Prod.fst)
        ((cpDims (s.map (fun n : ℕ => (n : ℤ))) (s.map (fun n : ℕ => (n : ℤ)))
            ((s.map (fun n : ℕ => n / 2)).map (fun n : ℕ => (n : ℤ)))
            ((s.map (fun n : ℕ => n / 2)).map (fun n : ℕ => (n : ℤ)))
            (s.map (fun n : ℕ => (n : ℤ)))).map Prod.snd) idx = idx := by
  induction s generalizing idx with
  | nil =>
    rcases idx with _ | ⟨i, idx⟩
    · exact ⟨rfl, rfl⟩
    · simp [validIdx] at hv
  | cons a s ih =>
    rcases idx with _ | ⟨i, idx⟩
    · simp [validIdx] at hv
    · simp only [validIdx, Bool.and_eq_true, decide_eq_true_eq] at hv
      obtain ⟨hia, hv⟩ := hv
      have ha : 1 ≤ a := by omega
      obtain ⟨ihr, ihs⟩ := ih idx hv
      simp only [List.map_cons, cpDims, cpDim_self a ha, inRegion, srcIndex]
      have hm : memSlice a (SliceSpec.interval 0 (a : ℤ)) i = true :=
        (memSlice_interval_of a 0 (a : ℤ) i le_rfl (by positivity) (by positivity)
          le_rfl).mpr ⟨by positivity, by exact_mod_cast hia⟩
      have hst : sliceStart a (SliceSpec.interval 0 (a : ℤ)) = 0 := by
        have := sliceStart_cast a 0 (a : ℤ) le_rfl (by positivity)
        exact_mod_cast this
      refine ⟨?_, ?_⟩
      · rw [Bool.and_eq_true]
        exact ⟨hm, ihr⟩
      · rw [hst]
        simp only [Nat.sub_zero, Nat.zero_add, ihs]

/-- Claim C5: `resize_center(img, *img.shape)` is the identity: it returns an
array with the same shape and the same element at every valid coordinate. -/
theorem resize_center_self {α : Type} (img : NDArr α) (f : α) :
    sameArr (resize_center img img.shape f) img := by
  have hrd := zipWith_resize_self img.shape
  have hlen : (cpDims (img.shape.map (fun n : ℕ => (n : ℤ)))
      (img.shape.map (fun n : ℕ => (n : ℤ)))
      ((img.shape.map (fun n : ℕ => n / 2)).map (fun n : ℕ => (n : ℤ)))
      ((img.shape.map (fun n : ℕ => n / 2)).map (fun n : ℕ => (n : ℤ)))
      (img.shape.map (fun n : ℕ => (n : ℤ)))).length = img.shape.length := by
    rw [cpDims_length] <;> simp only [List.length_map, min_self]
  constructor
  · show List.zipWith (fun r s' => if r = 0 then s' else r) img.shape img.shape = img.shape
    exact hrd
  · intro idx hv
    have hv' : validIdx img.shape idx = true := by
      rwa [show (resize_center img img.shape f).shape = img.shape from hrd] at hv
    obtain ⟨hreg, hidx⟩ := self_slices_spec img.shape idx hv'
    show (resize_center img img.shape f).data idx = img.data idx
    simp only [resize_center, assignCopy, copypaste_arrays, hrd]
    simp only [hlen, Nat.sub_self, List.replicate_zero, List.append_nil]
    rw [hreg, hidx]
    simp

/-- Witness for C5 at a concrete image of shape `[2, 3]`. -/
theorem resize_center_self_witness :
    sameArr
      (resize_center (NDArr.mk [2, 3] (fun idx => idx.sum)) (NDArr.mk [2, 3]
        (fun idx => idx.sum)).shape 99)
      (NDArr.mk [2, 3] (fun idx => idx.sum)) :=
  resize_center_self (NDArr.mk [2, 3] (fun idx => idx.sum)) 99

/-! ### The growing and shrinking configurations of `resize_center` -/

lemma dimsGrow_length (s t : List ℕ) (h : dimsGrow s t = true) : s.length = t.length := by
  induction s generalizing t with
  | nil => rcases t with _ | _ <;> simp_all [dimsGrow]
  | cons a s ih =>
    rcases t with _ | ⟨b, t⟩
    · simp [dimsGrow] at h
    · simp only [dimsGrow, Bool.and_eq_true] at h
      simp [ih t h.2]

lemma validIdx_length (s idx : List ℕ) (h : validIdx s idx = true) :
    idx.length = s.length := by
  induction s generalizing idx with
  | nil => rcases idx with _ | _ <;> simp_all [validIdx]
  | cons a s ih =>
    rcases idx with _ | ⟨i, idx⟩
    · simp [validIdx] at h
    · simp only [validIdx, Bool.and_eq_true] at h
      simp [ih idx h.2]

lemma zipWith_resize_grow (s t : List ℕ) (h : dimsGrow s t = true) :
    List.zipWith (fun r s' => if r = 0 then s' else r) t s = t := by
  induction s generalizing t with
  | nil => rcases t with _ | _ <;> simp_all [dimsGrow]
  | cons a s ih =>
    rcases t with _ | ⟨b, t⟩
    · simp [dimsGrow] at h
    · simp only [dimsGrow, Bool.and_eq_true, decide_eq_true_eq] at h
      have hb : b ≠ 0 := by omega
      simp [hb, ih t h.2]

lemma zipWith_resize_shrink (s t : List ℕ) (h : dimsGrow s t = true) :
    List.zipWith (fun r s' => if r = 0 then s' else r) s t = s := by
  induction s generalizing t with
  | nil => rcases t with _ | _ <;> simp_all [dimsGrow]
  | cons a s ih =>
    rcases t with _ | ⟨b, t⟩
    · simp [dimsGrow] at h
    · simp only [dimsGrow, Bool.and_eq_true, decide_eq_true_eq] at h
      have ha : a ≠ 0 := by omega
      simp [ha, ih t h.2]

lemma memSlice_interval_natCast (n lo hi i : ℕ) (hlo : lo ≤ n) (hhi : hi ≤ n) :
    memSlice n (SliceSpec.interval (lo : ℤ) (hi : ℤ)) i
      = (decide (lo ≤ i) && decide (i < hi)) := by
  simp only [memSlice]
  rw [pyIdx_of_mem n lo (by positivity) (by exact_mod_cast hlo),
      pyIdx_of_mem n hi (by positivity) (by exact_mod_cast hhi)]
  simp [Nat.cast_le, Nat.cast_lt]

lemma sliceStart_natCast (n lo : ℕ) (hi : ℤ) (hlo : lo ≤ n) :
    sliceStart n (SliceSpec.interval (lo : ℤ) hi) = lo := by
  have := sliceStart_cast n (lo : ℤ) hi (by positivity) (by exact_mod_cast hlo)
  exact_mod_cast this

lemma addOff_valid (s t idx : List ℕ) (hg : dimsGrow s t = true)
    (hv : validIdx s idx = true) : validIdx t (addOff s t idx) = true := by
  induction s generalizing t idx with
  | nil =>
    rcases t with _ | _ <;> rcases idx with _ | _ <;> simp_all [dimsGrow, validIdx, addOff]
  | cons a s ih =>
    rcases t with _ | ⟨b, t⟩
    · simp [dimsGrow] at hg
    rcases idx with _ | ⟨i, idx⟩
    · simp [validIdx] at hv
    simp only [dimsGrow, Bool.and_eq_true, decide_eq_true_eq] at hg
    simp only [validIdx, Bool.and_eq_true, decide_eq_true_eq] at hv
    simp only [addOff, validIdx, Bool.and_eq_true, decide_eq_true_eq]
    exact ⟨by omega, ih t idx hg.2 hv.2⟩

lemma addOff_centered (s t idx : List ℕ) (hg : dimsGrow s t = true)
    (hv : validIdx s idx = true) : inCenteredRegion s t (addOff s t idx) = true := by
  induction s generalizing t idx with
  | nil =>
    rcases t with _ | _ <;> rcases idx with _ | _ <;>
      simp_all [dimsGrow, validIdx, addOff, inCenteredRegion]
  | cons a s ih =>
    rcases t with _ | ⟨b, t⟩
    · simp [dimsGrow] at hg
    rcases idx with _ | ⟨i, idx⟩
    · simp [validIdx] at hv
    simp only [dimsGrow, Bool.and_eq_true, decide_eq_true_eq] at hg
    simp only [validIdx, Bool.and_eq_true, decide_eq_true_eq] at hv
    simp only [addOff, inCenteredRegion, Bool.and_eq_true, decide_eq_true_eq]
    exact ⟨⟨by omega, by omega⟩, ih t idx hg.2 hv.2⟩

lemma shiftIdx_addOff (s t idx : List ℕ) (hg : dimsGrow s t = true)
    (hv : validIdx s idx = true) : shiftIdx s t (addOff s t idx) = idx := by
  induction s generalizing t idx with
  | nil =>
    rcases t with _ | _ <;> rcases idx with _ | _ <;>
      simp_all [dimsGrow, validIdx, addOff, shiftIdx]
  | cons a s ih =>
    rcases t with _ | ⟨b, t⟩
    · simp [dimsGrow] at hg
    rcases idx with _ | ⟨i, idx⟩
    · simp [validIdx] at hv
    simp only [dimsGrow, Bool.and_eq_true, decide_eq_true_eq] at hg
    simp only [validIdx, Bool.and_eq_true, decide_eq_true_eq] at hv
    simp only [addOff, shiftIdx, List.cons.injEq]
    exact ⟨by omega, ih t idx hg.2 hv.2⟩

lemma sliceStart_zero (n : ℕ) (hi : ℤ) : sliceStart n (SliceSpec.interval 0 hi) = 0 := by
  simp only [sliceStart]
  rw [pyIdx_of_mem n 0 le_rfl (by positivity)]
  rfl

lemma NDArr_shape_mk {α : Type} (s : List ℕ) (d : List ℕ → α) : (NDArr.mk s d).shape = s :=
  rfl

lemma NDArr_data_mk {α : Type} (s : List ℕ) (d : List ℕ → α) : (NDArr.mk s d).data = d :=
  rfl

/-- Growing configuration of `resize_center`: the destination region is
exactly the centered copy of the image, and positions inside it are copied
from the image coordinate shifted back by the centering offset. -/
lemma grow_slices_spec (s t idx : List ℕ) (hg : dimsGrow s t = true) :
    inRegion t
        ((cpDims (s.map (fun n : ℕ => (n : ℤ))) (t.map (fun n : ℕ => (n : ℤ)))
            ((s.map (fun n : ℕ => n / 2)).map (fun n : ℕ => (n : ℤ)))
            ((t.map (fun n : ℕ => n / 2)).map (fun n : ℕ => (n : ℤ)))
            (t.map (fun n : ℕ => (n : ℤ)))).map Prod.snd) idx
      = inCenteredRegion s t idx ∧
    (inCenteredRegion s t idx = true →
      srcIndex s t
          ((cpDims (s.map (fun n : ℕ => (n : ℤ))) (t.map (fun n : ℕ => (n : ℤ)))
              ((s.map (fun n : ℕ => n / 2)).map (fun n : ℕ => (n : ℤ)))
              ((t.map (fun n : ℕ => n / 2)).map (fun n : ℕ => (n : ℤ)))
              (t.map (fun n : ℕ => (n : ℤ)))).map Prod.fst)
          ((cpDims (s.map (fun n : ℕ => (n : ℤ))) (t.map (fun n : ℕ => (n : ℤ)))
              ((s.map (fun n : ℕ => n / 2)).map (fun n : ℕ => (n : ℤ)))
              ((t.map (fun n : ℕ => n / 2)).map (fun n : ℕ => (n : ℤ)))
              (t.map (fun n : ℕ => (n : ℤ)))).map Prod.snd) idx = shiftIdx s t idx) := by
  induction s generalizing t idx with
  | nil =>
    rcases t with _ | ⟨b, t⟩
    · rcases idx with _ | ⟨i, idx⟩ <;> simp [cpDims, inRegion, inCenteredRegion, srcIndex, shiftIdx]
    · simp [dimsGrow] at hg
  | cons a s ih =>
    rcases t with _ | ⟨b, t⟩
    · simp [dimsGrow] at hg
    simp only [dimsGrow, Bool.and_eq_true, decide_eq_true_eq] at hg
    obtain ⟨⟨ha, hab⟩, hg⟩ := hg
    rcases idx with _ | ⟨i, idx⟩
    · simp [List.map_cons, cpDims, inRegion, inCenteredRegion, srcIndex, shiftIdx]
    obtain ⟨ihr, ihs⟩ := ih t idx hg
    simp only [List.map_cons, cpDims, cpDim_grow a b ha hab, inRegion, srcIndex,
      inCenteredRegion, shiftIdx]
    constructor
    · rw [memSlice_interval_natCast b (b / 2 - a / 2) (b / 2 - a / 2 + a) i (by omega)
        (by omega), ihr]
    · intro hc
      simp only [Bool.and_eq_true, decide_eq_true_eq] at hc
      rw [sliceStart_zero, sliceStart_natCast b (b / 2 - a / 2) _ (by omega)]
      simp only [List.cons.injEq]
      exact ⟨by omega, ihs hc.2⟩

/-- Shrinking configuration of `resize_center` (used for the return trip):
every valid destination coordinate is in the copied region, and it is copied
from the centered source coordinate `addOff s t idx`. -/
lemma shrink_slices_spec (s t idx : List ℕ) (hg : dimsGrow s t = true)
    (hv : validIdx s idx = true) :
    inRegion s
        ((cpDims (t.map (fun n : ℕ => (n : ℤ))) (s.map (fun n : ℕ => (n : ℤ)))
            ((t.map (fun n : ℕ => n / 2)).map (fun n : ℕ => (n : ℤ)))
            ((s.map (fun n : ℕ => n / 2)).map (fun n : ℕ => (n : ℤ)))
            (s.map (fun n : ℕ => (n : ℤ)))).map Prod.snd) idx = true ∧
    srcIndex t s
        ((cpDims (t.map (fun n : ℕ => (n : ℤ))) (s.map (fun n : ℕ => (n : ℤ)))
            ((t.map (fun n : ℕ => n / 2)).map (fun n : ℕ => (n : ℤ)))
            ((s.map (fun n : ℕ => n / 2)).map (fun n : ℕ => (n : ℤ)))
            (s.map (fun n : ℕ => (n : ℤ)))).map Prod.fst)
        ((cpDims (t.map (fun n : ℕ => (n : ℤ))) (s.map (fun n : ℕ => (n : ℤ)))
            ((t.map (fun n : ℕ => n / 2)).map (fun n : ℕ => (n : ℤ)))
            ((s.map (fun n : ℕ => n / 2)).map (fun n : ℕ => (n : ℤ)))
            (s.map (fun n : ℕ => (n : ℤ)))).map Prod.snd) idx = addOff s t idx := by
  induction s generalizing t idx with
  | nil =>
    rcases t with _ | ⟨b, t⟩
    · rcases idx with _ | ⟨i, idx⟩
      · simp [cpDims, inRegion, srcIndex, addOff]
      · simp [validIdx] at hv
    · simp [dimsGrow] at hg
  | cons a s ih =>
    rcases t with _ | ⟨b, t⟩
    · simp [dimsGrow] at hg
    simp only [dimsGrow, Bool.and_eq_true, decide_eq_true_eq] at hg
    obtain ⟨⟨ha, hab⟩, hg⟩ := hg
    rcases idx with _ | ⟨i, idx⟩
    · simp [validIdx] at hv
    simp only [validIdx, Bool.and_eq_true, decide_eq_true_eq] at hv
    obtain ⟨hia, hv⟩ := hv
    obtain ⟨ihr, ihs⟩ := ih t idx hg hv
    simp only [List.map_cons, cpDims, cpDim_shrink a b ha hab, inRegion, srcIndex, addOff]
    constructor
    · rw [Bool.and_eq_true]
      refine ⟨(memSlice_interval_of a 0 (a : ℤ) i le_rfl (by positivity) (by positivity)
        le_rfl).mpr ⟨by positivity, by exact_mod_cast hia⟩, ihr⟩
    · rw [sliceStart_zero, sliceStart_natCast b (b / 2 - a / 2) _ (by omega)]
      simp only [List.cons.injEq]
      exact ⟨by omega, ihs⟩

/-- Claim C4: growing an image to a larger shape with `resize_center` and then
resizing back to the original shape reproduces the image exactly, and in the
grown intermediate array every valid position outside the centered copy of the
image holds the fill value. -/
theorem resize_center_roundtrip {α : Type} (img : NDArr α) (t : List ℕ) (fill fill2 : α)
    (hg : dimsGrow img.shape t = true) :
    sameArr (resize_center (resize_center img t fill) img.shape fill2) img ∧
    (∀ idx, validIdx t idx = true → inCenteredRegion img.shape t idx = false →
      (resize_center img t fill).data idx = fill) := by
  have hst : img.shape.length = t.length := dimsGrow_length _ _ hg
  have e1 : List.zipWith (fun r s' => if r = 0 then s' else r) t img.shape = t :=
    zipWith_resize_grow _ _ hg
  have e2 : List.zipWith (fun r s' => if r = 0 then s' else r) img.shape t = img.shape :=
    zipWith_resize_shrink _ _ hg
  have hlenG : (cpDims (img.shape.map (fun n : ℕ => (n : ℤ))) (t.map (fun n : ℕ => (n : ℤ)))
      ((img.shape.map (fun n : ℕ => n / 2)).map (fun n : ℕ => (n : ℤ)))
      ((t.map (fun n : ℕ => n / 2)).map (fun n : ℕ => (n : ℤ)))
      (t.map (fun n : ℕ => (n : ℤ)))).length = img.shape.length := by
    rw [cpDims_length]
    all_goals simp only [List.length_map]
    all_goals omega
  have hlenS : (cpDims (t.map (fun n : ℕ => (n : ℤ))) (img.shape.map (fun n : ℕ => (n : ℤ)))
      ((t.map (fun n : ℕ => n / 2)).map (fun n : ℕ => (n : ℤ)))
      ((img.shape.map (fun n : ℕ => n / 2)).map (fun n : ℕ => (n : ℤ)))
      (img.shape.map (fun n : ℕ => (n : ℤ)))).length = t.length := by
    rw [cpDims_length]
    all_goals simp only [List.length_map]
    all_goals omega
  have hshG : (resize_center img t fill).shape = t := e1
  constructor
  · constructor
    · show List.zipWith (fun r s' => if r = 0 then s' else r) img.shape
          (resize_center img t fill).shape = img.shape
      rw [hshG]
      exact e2
    · intro idx hv
      have hv' : validIdx img.shape idx = true := by
        have hsh : (resize_center (resize_center img t fill) img.shape fill2).shape
            = img.shape := by
          show List.zipWith (fun r s' => if r = 0 then s' else r) img.shape
              (resize_center img t fill).shape = img.shape
          rw [hshG]
          exact e2
        rwa [hsh] at hv
      obtain ⟨hr2, hs2⟩ := shrink_slices_spec img.shape t idx hg hv'
      obtain ⟨hr1, hs1⟩ := grow_slices_spec img.shape t (addOff img.shape t idx) hg
      have hc1 : inCenteredRegion img.shape t (addOff img.shape t idx) = true :=
        addOff_centered _ _ _ hg hv'
      show (resize_center (resize_center img t fill) img.shape fill2).data idx = img.data idx
      simp only [resize_center, assignCopy, copypaste_arrays, NDArr_shape_mk,
        NDArr_data_mk, e1, e2]
      simp only [hlenG, hlenS, hst, Nat.sub_self, List.replicate_zero, List.append_nil]
      rw [hr2, hs2, hr1, hc1, hs1 hc1, shiftIdx_addOff img.shape t idx hg hv']
      simp
  · intro idx hvt hnc
    show (resize_center img t fill).data idx = fill
    simp only [resize_center, assignCopy, copypaste_arrays, NDArr_shape_mk,
      NDArr_data_mk, e1]
    simp only [hlenG, hst, Nat.sub_self, List.replicate_zero, List.append_nil]
    rw [(grow_slices_spec img.shape t idx hg).1, hnc]
    simp

/-- Witness for C4: a one-pixel image grown to shape `[3]` and back. -/
theorem resize_center_roundtrip_witness :
    ((resize_center (resize_center (NDArr.mk [1] (fun _ => (37 : ℕ))) [3] 0)
        (NDArr.mk [1] (fun _ => (37 : ℕ))).shape 1).data [0] =
      (NDArr.mk [1] (fun _ => (37 : ℕ))).data [0]) ∧
    (resize_center (NDArr.mk [1] (fun _ => (37 : ℕ))) [3] 0).data [0] = 0 := by
  have h := resize_center_roundtrip (NDArr.mk [1] (fun _ => (37 : ℕ))) [3] 0 1 (by decide)
  exact ⟨h.1.2 [0] (by decide), h.2 [0] (by decide) (by decide)⟩

/-! ### CenterSampler lemmas -/

lemma unravel_length (sh : List ℕ) (f : ℕ) : (unravel sh f).length = sh.length := by
  induction sh generalizing f with
  | nil => rfl
  | cons d ds ih => simp [unravel, ih]

lemma clampCenter_length (cs vss ves : List ℕ) :
    (clampCenter cs vss ves).length = min (min cs.length vss.length) ves.length := by
  induction cs generalizing vss ves with
  | nil => rcases vss with _ | _ <;> rcases ves with _ | _ <;> simp [clampCenter]
  | cons c cs ih =>
    rcases vss with _ | ⟨vs, vss⟩
    · simp [clampCenter]
    rcases ves with _ | ⟨ve, ves⟩
    · simp [clampCenter]
    simp only [clampCenter, List.length_cons, ih]
    omega

lemma validStartOf_getD (sz : List ℕ) (i : ℕ) :
    (validStartOf sz).getD i 0 = sz.getD i 0 / 2 := by
  induction sz generalizing i with
  | nil => simp [validStartOf]
  | cons a sz ih =>
    rcases i with _ | i
    · simp [validStartOf]
    · simpa [validStartOf] using ih i

lemma clampCenter_bounds (cs vss ves : List ℕ) (i : ℕ)
    (hi : i < (clampCenter cs vss ves).length)
    (hlt : vss.getD i 0 < ves.getD i 0) (hve : ves.getD i 0 ≤ 65535) :
    vss.getD i 0 ≤ (clampCenter cs vss ves).getD i 0 ∧
      (clampCenter cs vss ves).getD i 0 < ves.getD i 0 := by
  induction cs generalizing vss ves i with
  | nil => simp [clampCenter] at hi
  | cons c cs ih =>
    rcases vss with _ | ⟨vs, vss⟩
    · simp [clampCenter] at hi
    rcases ves with _ | ⟨ve, ves⟩
    · simp [clampCenter] at hi
    rcases i with _ | i
    · simp only [List.getD_cons_zero] at hlt hve ⊢
      simp only [clampCenter, List.getD_cons_zero]
      split_ifs <;> omega
    · simp only [List.getD_cons_succ] at hlt hve ⊢
      simp only [clampCenter, List.getD_cons_succ] at hi ⊢
      exact ih vss ves i (by simpa [clampCenter] using hi) hlt hve

lemma all_zip_le (sp sz : List ℕ)
    (h : ((sp.zip sz).all fun p => decide (p.2 ≤ p.1)) = true)
    (i : ℕ) (hi : i < sz.length) (hlen : sz.length = sp.length) :
    sz.getD i 0 ≤ sp.getD i 0 := by
  induction sp generalizing sz i with
  | nil => rcases sz with _ | _ <;> simp_all
  | cons b sp ih =>
    rcases sz with _ | ⟨a, sz⟩
    · simp at hi
    simp only [List.zip_cons_cons, List.all_cons, Bool.and_eq_true, decide_eq_true_eq] at h
    rcases i with _ | i
    · simpa using h.1
    · simp only [List.getD_cons_succ]
      exact ih sz h.2 i (by simpa using hi) (by simpa using hlen)

/-- When the asserted `size ≤ shape` holds and every spatial extent is small
enough that the `uint16` cast of `valid_end` does not wrap, the
degenerate-range bump never fires and the valid range is nonempty, with
`valid_end` given by the exact floor formula (below `2^16`). -/
lemma valid_bounds (sp sz : List ℕ) (i : ℕ)
    (hsz : ((sp.zip sz).all fun p => decide (p.2 ≤ p.1)) = true)
    (hi : i < sz.length) (hlen : sz.length = sp.length)
    (hsmall : ∀ d ∈ sp, d ≤ 65534) :
    (validStartOf sz).getD i 0 <
        (bumpEnds (validStartOf sz) (validEndOf sp sz)).getD i 0 ∧
      (bumpEnds (validStartOf sz) (validEndOf sp sz)).getD i 0
        = (2 * sp.getD i 0 + 2 - sz.getD i 0) / 2 ∧
      (bumpEnds (validStartOf sz) (validEndOf sp sz)).getD i 0 ≤ 65535 := by
  induction sp generalizing sz i with
  | nil =>
    rcases sz with _ | _
    · simp at hi
    · simp at hlen
  | cons b sp ih =>
    rcases sz with _ | ⟨a, sz⟩
    · simp at hi
    simp only [List.zip_cons_cons, List.all_cons, Bool.and_eq_true, decide_eq_true_eq] at hsz
    rcases i with _ | i
    · simp only [validStartOf, validEndOf, bumpEnds, List.map_cons, List.zip_cons_cons,
        List.zipWith_cons_cons, List.getD_cons_zero]
      have hab : a ≤ b := hsz.1
      have hb : b ≤ 65534 := hsmall b (by simp)
      have hmod : (2 * b + 2 - a) / 2 % 65536 = (2 * b + 2 - a) / 2 := by omega
      rw [hmod]
      have hne : ¬ a / 2 = (2 * b + 2 - a) / 2 := by omega
      rw [if_neg hne]
      omega
    · simp only [validStartOf, validEndOf, bumpEnds, List.map_cons, List.zip_cons_cons,
        List.zipWith_cons_cons, List.getD_cons_succ]
      exact ih sz i hsz.2 (by simpa using hi) (by simpa using hlen)
        (fun d hd => hsmall d (by simp [hd]))

/-- Lengths of the valid-range lists. -/
lemma bumped_length (sp sz : List ℕ) (hlen : sz.length = sp.length) :
    (bumpEnds (validStartOf sz) (validEndOf sp sz)).length = sz.length := by
  simp [bumpEnds, validStartOf, validEndOf, hlen]

/-- Nat-level bounds for every center produced by the sampling loop: each
coordinate lies in `[size/2, (2*shape + 2 - size)/2)`. -/
lemma sampleCenters_mem_bounds (numSamples : ℕ) (ratio : ℚ) (fg bg : List ℕ)
    (labelChannels : ℕ) (sp sz : List ℕ) (rand : ℕ → ℚ) (randint : ℕ → ℕ → ℕ)
    (c : List ℕ)
    (hsz : ((sp.zip sz).all fun p => decide (p.2 ≤ p.1)) = true)
    (hlen : sz.length = sp.length)
    (hsmall : ∀ d ∈ sp, d ≤ 65534)
    (hc : c ∈ sampleCenters numSamples ratio fg bg labelChannels sp
      (validStartOf sz) (bumpEnds (validStartOf sz) (validEndOf sp sz)) rand randint) :
    c.length = sp.length ∧
    ∀ i, i < sp.length →
      sz.getD i 0 / 2 ≤ c.getD i 0 ∧
      c.getD i 0 < (2 * sp.getD i 0 + 2 - sz.getD i 0) / 2 := by
  simp only [sampleCenters, List.mem_map, List.mem_range] at hc
  obtain ⟨k, hk, rfl⟩ := hc
  have hclen : ∀ f : ℕ,
      (clampCenter ((unravel (labelChannels :: sp) f).tail) (validStartOf sz)
        (bumpEnds (validStartOf sz) (validEndOf sp sz))).length = sp.length := by
    intro f
    simp only [clampCenter_length, List.length_tail, unravel_length, List.length_cons,
      validStartOf, List.length_map, bumpEnds, List.length_zipWith, validEndOf,
      List.length_zip]
    omega
  refine ⟨hclen _, fun i hi => ?_⟩
  have hiv : i < (clampCenter
      ((unravel (labelChannels :: sp)
        ((chooseSet ratio fg bg (rand k)).getD
          (randint k (chooseSet ratio fg bg (rand k)).length) 0)).tail)
      (validStartOf sz)
      (bumpEnds (validStartOf sz) (validEndOf sp sz))).length := by
    rw [hclen]; exact hi
  have hvb := valid_bounds sp sz i hsz (by omega) hlen hsmall
  have hcb := clampCenter_bounds _ _ _ i hiv hvb.1 hvb.2.2
  rw [validStartOf_getD, hvb.2.1] at hcb
  exact hcb

/-- Conversion of the Nat-level bounds to the spec's rational-valued
`valid_start`/`valid_end` formulas. -/
lemma crop_center_bounds_q (sp sz c : List ℕ)
    (hall : ((sp.zip sz).all fun p => decide (p.2 ≤ p.1)) = true)
    (hlen : sz.length = sp.length)
    (hbounds : ∀ i, i < sp.length →
      sz.getD i 0 / 2 ≤ c.getD i 0 ∧
      c.getD i 0 < (2 * sp.getD i 0 + 2 - sz.getD i 0) / 2) :
    ∀ i, i < sp.length →
      validStartSpec (sz.getD i 0) ≤ (c.getD i 0 : ℚ) ∧
      (c.getD i 0 : ℚ) < validEndSpec (sp.getD i 0) (sz.getD i 0) := by
  intro i hi
  obtain ⟨hlow, hhigh⟩ := hbounds i hi
  have hszle : sz.getD i 0 ≤ sp.getD i 0 := all_zip_le _ _ hall i (by omega) hlen
  constructor
  · show ((sz.getD i 0 / 2 : ℕ) : ℚ) ≤ (c.getD i 0 : ℚ)
    exact_mod_cast hlow
  · have hne : validStartSpec (sz.getD i 0) ≠
        ((sp.getD i 0 : ℚ) + 1 - (sz.getD i 0 : ℚ) / 2) := by
      have hfl : ((sz.getD i 0 / 2 : ℕ) : ℚ) * 2 ≤ (sz.getD i 0 : ℚ) := by
        have h2f : sz.getD i 0 / 2 * 2 ≤ sz.getD i 0 := by omega
        exact_mod_cast h2f
      have hms : (sz.getD i 0 : ℚ) ≤ (sp.getD i 0 : ℚ) := by exact_mod_cast hszle
      have hlt : validStartSpec (sz.getD i 0) <
          (sp.getD i 0 : ℚ) + 1 - (sz.getD i 0 : ℚ) / 2 := by
        show ((sz.getD i 0 / 2 : ℕ) : ℚ) < _
        linarith
      exact ne_of_lt hlt
    simp only [validEndSpec]
    rw [if_neg hne]
    have hnat : 2 * c.getD i 0 + sz.getD i 0 < 2 * sp.getD i 0 + 2 := by omega
    have hcast : ((2 * c.getD i 0 + sz.getD i 0 : ℕ) : ℚ) <
        ((2 * sp.getD i 0 + 2 : ℕ) : ℚ) := by exact_mod_cast hnat
    push_cast at hcast
    linarith

/-- Claim C2 (amended): provided every spatial extent is at most 65534 — so
the `uint16` cast of `valid_end` does not wrap — every center returned by
`generate_pos_neg_label_crop_centers` has one coordinate per spatial dimension
and satisfies, in every dimension, `valid_start[i] ≤ c[i] < valid_end[i]` with
`valid_start[i] = size[i] // 2` and
`valid_end[i] = spatial_shape[i] + 1 - size[i] / 2` (true division, bumped by
one when it equals `valid_start[i]`).  Without the extent bound the claim is
false; see the counterexample. -/
theorem crop_centers_within_valid_range
    (labelChannels : ℕ) (spatialShape : List ℕ) (label : ℕ → ℕ → ℚ) (size : List ℕ)
    (numSamples : ℕ) (posRatio : ℚ) (image : Option (ℕ × (ℕ → ℕ → ℚ)))
    (imageThreshold : ℚ) (rand : ℕ → ℚ) (randint : ℕ → ℕ → ℕ)
    (w : Bool) (centers : List (List ℕ)) (c : List ℕ)
    (hsmall : ∀ d ∈ spatialShape, d ≤ 65534)
    (hok : generate_pos_neg_label_crop_centers labelChannels spatialShape label size
      numSamples posRatio image imageThreshold rand randint = Except.ok (w, centers))
    (hc : c ∈ centers) :
    c.length = spatialShape.length ∧
    ∀ i, i < spatialShape.length →
      validStartSpec (size.getD i 0) ≤ (c.getD i 0 : ℚ) ∧
      (c.getD i 0 : ℚ) < validEndSpec (spatialShape.getD i 0) (size.getD i 0) := by
  rw [generate_pos_neg_label_crop_centers] at hok
  by_cases h1 : size.length ≠ spatialShape.length
  · rw [if_pos h1] at hok
    simp at hok
  rw [if_neg h1] at hok
  by_cases h2 : ((spatialShape.zip size).all fun p => decide (p.2 ≤ p.1)) = true
  swap
  · rw [if_pos h2] at hok
    simp at hok
  rw [if_neg (not_not_intro h2)] at hok
  dsimp only at hok
  by_cases h3 : ((fgIndicesOf labelChannels spatialShape.prod label).isEmpty &&
      (bgIndicesOf labelChannels spatialShape.prod label image imageThreshold).isEmpty)
        = true
  · rw [if_pos h3] at hok
    simp at hok
  rw [if_neg h3] at hok
  rw [Except.ok.injEq, Prod.mk.injEq] at hok
  obtain ⟨hw, hcent⟩ := hok
  subst hcent
  obtain ⟨hclen, hbounds⟩ :=
    sampleCenters_mem_bounds _ _ _ _ _ _ _ _ _ _ h2 (not_not.mp h1) hsmall hc
  exact ⟨hclen, crop_center_bounds_q _ _ _ h2 (not_not.mp h1) hbounds⟩

/-- Witness for C2: one foreground voxel at flat position 2 of a `(1, 4)`
label, ROI size 2; the single returned center is `[2]`, inside
`[valid_start, valid_end) = [1, 4)`. -/
theorem crop_centers_within_valid_range_witness :
    validStartSpec ((2 : ℕ)) ≤ ((2 : ℕ) : ℚ) ∧ ((2 : ℕ) : ℚ) < validEndSpec 4 2 := by
  have h := crop_centers_within_valid_range 1 [4]
    (fun _ j => if j = 2 then (1 : ℚ) else 0) [2] 1 1 none 0 (fun _ => 0) (fun _ _ => 0)
    false [[2]] [2] (by decide) (by rfl) (by simp)
  exact h.2 0 (by decide)

lemma isEmpty_false_of_ne {l : List ℕ} (h : l ≠ []) : l.isEmpty = false := by
  cases l with
  | nil => exact absurd rfl h
  | cons a t => rfl

/-- Claim C3: with the two size assertions satisfied,
`generate_pos_neg_label_crop_centers` raises exactly when the foreground and
background index sets are both empty; when exactly one is empty it returns
normally with the warning flag set, the positive ratio overridden to 0
(foreground empty) or 1 (background empty); with neither empty it returns
without warning using the caller's ratio.  A ratio of 0 makes every draw use
the background set and a ratio of 1 makes every draw use the foreground set
(for rand values in `[0, 1)`). -/
theorem crop_centers_empty_handling
    (labelChannels : ℕ) (spatialShape : List ℕ) (label : ℕ → ℕ → ℚ) (size : List ℕ)
    (numSamples : ℕ) (posRatio : ℚ) (image : Option (ℕ × (ℕ → ℕ → ℚ)))
    (imageThreshold : ℚ) (rand : ℕ → ℚ) (randint : ℕ → ℕ → ℕ)
    (hlen : size.length = spatialShape.length)
    (hsz : ((spatialShape.zip size).all fun p => decide (p.2 ≤ p.1)) = true) :
    (exceptIsError (generate_pos_neg_label_crop_centers labelChannels spatialShape label
        size numSamples posRatio image imageThreshold rand randint) = true ↔
      (fgIndicesOf labelChannels spatialShape.prod label = [] ∧
       bgIndicesOf labelChannels spatialShape.prod label image imageThreshold = [])) ∧
    (fgIndicesOf labelChannels spatialShape.prod label = [] →
      bgIndicesOf labelChannels spatialShape.prod label image imageThreshold ≠ [] →
      generate_pos_neg_label_crop_centers labelChannels spatialShape label size
          numSamples posRatio image imageThreshold rand randint =
        Except.ok (true, sampleCenters numSamples 0
          (fgIndicesOf labelChannels spatialShape.prod label)
          (bgIndicesOf labelChannels spatialShape.prod label image imageThreshold)
          labelChannels spatialShape (validStartOf size)
          (bumpEnds (validStartOf size) (validEndOf spatialShape size)) rand randint)) ∧
    (bgIndicesOf labelChannels spatialShape.prod label image imageThreshold = [] →
      fgIndicesOf labelChannels spatialShape.prod label ≠ [] →
      generate_pos_neg_label_crop_centers labelChannels spatialShape label size
          numSamples posRatio image imageThreshold rand randint =
        Except.ok (true, sampleCenters numSamples 1
          (fgIndicesOf labelChannels spatialShape.prod label)
          (bgIndicesOf labelChannels spatialShape.prod label image imageThreshold)
          labelChannels spatialShape (validStartOf size)
          (bumpEnds (validStartOf size) (validEndOf spatialShape size)) rand randint)) ∧
    (fgIndicesOf labelChannels spatialShape.prod label ≠ [] →
      bgIndicesOf labelChannels spatialShape.prod label image imageThreshold ≠ [] →
      generate_pos_neg_label_crop_centers labelChannels spatialShape label size
          numSamples posRatio image imageThreshold rand randint =
        Except.ok (false, sampleCenters numSamples posRatio
          (fgIndicesOf labelChannels spatialShape.prod label)
          (bgIndicesOf labelChannels spatialShape.prod label image imageThreshold)
          labelChannels spatialShape (validStartOf size)
          (bumpEnds (validStartOf size) (validEndOf spatialShape size)) rand randint)) ∧
    (∀ r : ℚ, 0 ≤ r →
      chooseSet 0 (fgIndicesOf labelChannels spatialShape.prod label)
        (bgIndicesOf labelChannels spatialShape.prod label image imageThreshold) r =
      bgIndicesOf labelChannels spatialShape.prod label image imageThreshold) ∧
    (∀ r : ℚ, r < 1 →
      chooseSet 1 (fgIndicesOf labelChannels spatialShape.prod label)
        (bgIndicesOf labelChannels spatialShape.prod label image imageThreshold) r =
      fgIndicesOf labelChannels spatialShape.prod label) := by
  have haux : generate_pos_neg_label_crop_centers labelChannels spatialShape label size
      numSamples posRatio image imageThreshold rand randint =
      (if (fgIndicesOf labelChannels spatialShape.prod label).isEmpty &&
          (bgIndicesOf labelChannels spatialShape.prod label image imageThreshold).isEmpty
        then Except.error "no sampling location available."
        else Except.ok
          ((fgIndicesOf labelChannels spatialShape.prod label).isEmpty ||
            (bgIndicesOf labelChannels spatialShape.prod label image
              imageThreshold).isEmpty,
          sampleCenters numSamples
            (if (fgIndicesOf labelChannels spatialShape.prod label).isEmpty ||
                (bgIndicesOf labelChannels spatialShape.prod label image
                  imageThreshold).isEmpty
              then
                (if (fgIndicesOf labelChannels spatialShape.prod label).isEmpty
                  then (0 : ℚ) else 1)
              else posRatio)
            (fgIndicesOf labelChannels spatialShape.prod label)
            (bgIndicesOf labelChannels spatialShape.prod label image imageThreshold)
            labelChannels spatialShape (validStartOf size)
            (bumpEnds (validStartOf size) (validEndOf spatialShape size))
            rand randint)) := by
    rw [generate_pos_neg_label_crop_centers, if_neg (not_not_intro hlen),
      if_neg (not_not_intro hsz)]
  rw [haux]
  refine ⟨?_, ?_, ?_, ?_, fun r hr => ?_, fun r hr => ?_⟩
  · by_cases hfg : fgIndicesOf labelChannels spatialShape.prod label = [] <;>
      by_cases hbg : bgIndicesOf labelChannels spatialShape.prod label image
        imageThreshold = [] <;>
      simp [hfg, hbg, isEmpty_false_of_ne, exceptIsError]
  · intro hfg hbg
    simp [hfg, isEmpty_false_of_ne hbg]
  · intro hbg hfg
    simp [hbg, isEmpty_false_of_ne hfg]
  · intro hfg hbg
    simp [isEmpty_false_of_ne hfg, isEmpty_false_of_ne hbg]
  · rw [chooseSet, if_neg (not_lt.mpr hr)]
  · rw [chooseSet, if_pos hr]

/-- Witness for C3: an all-zero label (empty foreground, background `[0, 1]`)
returns normally with the warning flag, ratio overridden to 0, and a ratio of
0 sends the draw to the background set. -/
theorem crop_centers_empty_handling_witness :
    generate_pos_neg_label_crop_centers 1 [2] (fun _ _ => (0 : ℚ)) [1] 1 (1 / 2) none 0
        (fun _ => 0) (fun _ _ => 0) =
      Except.ok (true, sampleCenters 1 0
        (fgIndicesOf 1 ([2] : List ℕ).prod (fun _ _ => (0 : ℚ)))
        (bgIndicesOf 1 ([2] : List ℕ).prod (fun _ _ => (0 : ℚ)) none 0)
        1 [2] (validStartOf [1]) (bumpEnds (validStartOf [1]) (validEndOf [2] [1]))
        (fun _ => 0) (fun _ _ => 0)) ∧
    chooseSet 0 (fgIndicesOf 1 ([2] : List ℕ).prod (fun _ _ => (0 : ℚ)))
        (bgIndicesOf 1 ([2] : List ℕ).prod (fun _ _ => (0 : ℚ)) none 0) 0 =
      bgIndicesOf 1 ([2] : List ℕ).prod (fun _ _ => (0 : ℚ)) none 0 := by
  have h := crop_centers_empty_handling 1 [2] (fun _ _ => (0 : ℚ)) [1] 1 (1 / 2) none 0
    (fun _ => 0) (fun _ _ => 0) (by decide) (by decide)
  exact ⟨h.2.1 (by decide) (by decide), h.2.2.2.2.1 0 le_rfl⟩

/-! ### AffineBuilder theorems -/

/-- Claim C6 (amended): for `spatialDims = 3` and one to three angles,
`create_rotate` returns the product of the elementary rotations about axes
1, 2, 3 in that order, using as many angles as supplied (each missing
trailing rotation contributing the identity); with zero angles it returns no
matrix at all (`None`) rather than the identity. -/
theorem create_rotate_3d_product (radians : List ℝ) (h1 : 1 ≤ radians.length)
    (h2 : radians.length ≤ 3) :
    create_rotate 3 radians = Except.ok (Sum.inr (some (rotationsProductSpec radians))) := by
  rcases radians with _ | ⟨a, _ | ⟨b, _ | ⟨c, _ | ⟨d, rest⟩⟩⟩⟩
  · simp at h1
  · simp [create_rotate, rotate3_aux, rotationsProductSpec]
  · simp [create_rotate, rotate3_aux, rotationsProductSpec]
  · simp [create_rotate, rotate3_aux, rotationsProductSpec]
  · simp at h2

/-- Witness for C6 at one concrete angle. -/
theorem create_rotate_3d_product_witness :
    create_rotate 3 [(1 : ℝ)] = Except.ok (Sum.inr (some (rotationsProductSpec [1]))) :=
  create_rotate_3d_product [1] (by decide) (by decide)

/-- Counterexample to C6 as stated: with zero angles the 3D branch returns
`None`, not the identity matrix (the product of zero elementary rotations). -/
theorem create_rotate_zero_angles_cex :
    create_rotate 3 ([] : List ℝ) ≠
      Except.ok (Sum.inr (some (rotationsProductSpec []))) := by
  simp [create_rotate, rotate3_aux]

/-- Claim C7 (amended): `create_rotate` raises exactly when `spatialDims` is
neither 2 nor 3, or when `spatialDims = 2` and no angle is supplied (the 2D
branch falls through to the `raise`); `spatialDims = 3` never raises, and
`spatialDims = 2` with at least one angle returns a matrix. -/
theorem create_rotate_error_iff (sd : ℤ) (radians : List ℝ) :
    exceptIsError (create_rotate sd radians) = true ↔
      ((sd ≠ 2 ∧ sd ≠ 3) ∨ (sd = 2 ∧ radians = [])) := by
  rw [create_rotate]
  by_cases hA : sd = 2 ∧ 1 ≤ radians.length
  · rw [if_pos hA]
    simp only [exceptIsError, Bool.false_eq_true, false_iff]
    rintro (⟨h2, _⟩ | ⟨_, hnil⟩)
    · exact h2 hA.1
    · rw [hnil] at hA
      simp at hA
  · rw [if_neg hA]
    by_cases hB : sd = 3
    · rw [if_pos hB]
      simp only [exceptIsError, Bool.false_eq_true, false_iff]
      rintro (⟨_, h3⟩ | ⟨h2, _⟩)
      · exact h3 hB
      · omega
    · rw [if_neg hB]
      simp only [exceptIsError, true_iff]
      by_cases h2 : sd = 2
      · right
        refine ⟨h2, ?_⟩
        have hnl : ¬ 1 ≤ radians.length := fun hl => hA ⟨h2, hl⟩
        cases radians with
        | nil => rfl
        | cons a t => simp at hnl
      · exact Or.inl ⟨h2, hB⟩

/-- Counterexample to C7 as stated: `spatialDims = 2` with an empty angle
sequence raises, although 2 is in `{2, 3}`. -/
theorem create_rotate_2d_no_angle_cex :
    exceptIsError (create_rotate 2 ([] : List ℝ)) = true := rfl

/-- Claim C8: for a 3×3 affine `M`, `to_affine_nd(3, to_affine_nd(2, M))` is a
4×4 matrix that preserves `M`'s top-left 2×2 block and its first two
last-column (translation) entries, while its third row and third column are
those of the identity (zero translation in the third spatial axis). -/
theorem to_affine_nd_roundtrip (M : Matrix (Fin 3) (Fin 3) ℝ) :
    (to_affine_nd 3 2 (to_affine_nd 2 2 M) 0 0 = M 0 0 ∧
     to_affine_nd 3 2 (to_affine_nd 2 2 M) 0 1 = M 0 1 ∧
     to_affine_nd 3 2 (to_affine_nd 2 2 M) 1 0 = M 1 0 ∧
     to_affine_nd 3 2 (to_affine_nd 2 2 M) 1 1 = M 1 1) ∧
    (to_affine_nd 3 2 (to_affine_nd 2 2 M) 0 3 = M 0 2 ∧
     to_affine_nd 3 2 (to_affine_nd 2 2 M) 1 3 = M 1 2) ∧
    (to_affine_nd 3 2 (to_affine_nd 2 2 M) 2 0 = 0 ∧
     to_affine_nd 3 2 (to_affine_nd 2 2 M) 2 1 = 0 ∧
     to_affine_nd 3 2 (to_affine_nd 2 2 M) 2 2 = 1 ∧
     to_affine_nd 3 2 (to_affine_nd 2 2 M) 2 3 = 0) ∧
    (to_affine_nd 3 2 (to_affine_nd 2 2 M) 0 2 = 0 ∧
     to_affine_nd 3 2 (to_affine_nd 2 2 M) 1 2 = 0 ∧
     to_affine_nd 3 2 (to_affine_nd 2 2 M) 3 2 = 0) :=
  ⟨⟨rfl, rfl, rfl, rfl⟩, ⟨rfl, rfl⟩, ⟨rfl, rfl, rfl, rfl⟩, ⟨rfl, rfl, rfl⟩⟩

/-! ### The bottom-row invariant -/

lemma lastRowOne_mul {n : ℕ} {A B : Matrix (Fin (n + 1)) (Fin (n + 1)) ℝ}
    (hA : lastRowOne A) (hB : lastRowOne B) : lastRowOne (A * B) := by
  intro j
  rw [Matrix.mul_apply]
  have h1 : ∀ k, A (Fin.last n) k * B k j = if k = Fin.last n then B k j else 0 := by
    intro k
    rw [hA k]
    split_ifs <;> simp
  rw [Finset.sum_congr rfl (fun k _ => h1 k)]
  simp [Finset.sum_ite_eq', hB j]

lemma lastRowOne_rot2d (θ : ℝ) : lastRowOne (rot2d θ) := by
  intro j
  fin_cases j <;> simp [rot2d, Fin.last]

lemma lastRowOne_rotAx1 (θ : ℝ) : lastRowOne (rotAx1 θ) := by
  intro j
  fin_cases j <;> simp [rotAx1, Fin.last, Matrix.vecHead, Matrix.vecTail]

lemma lastRowOne_rotAx2 (θ : ℝ) : lastRowOne (rotAx2 θ) := by
  intro j
  fin_cases j <;> simp [rotAx2, Fin.last, Matrix.vecHead, Matrix.vecTail]

lemma lastRowOne_rotAx3 (θ : ℝ) : lastRowOne (rotAx3 θ) := by
  intro j
  fin_cases j <;> simp [rotAx3, Fin.last, Matrix.vecHead, Matrix.vecTail]

lemma lastRowOne_rotate3 (radians : List ℝ) (M : Matrix (Fin 4) (Fin 4) ℝ)
    (h : rotate3_aux radians = some M) : lastRowOne M := by
  rcases radians with _ | ⟨a, _ | ⟨b, _ | ⟨c, rest⟩⟩⟩
  · simp [rotate3_aux] at h
  · simp only [rotate3_aux, Option.some.injEq] at h
    exact h ▸ lastRowOne_rotAx1 a
  · simp only [rotate3_aux, Option.some.injEq] at h
    exact h ▸ lastRowOne_mul (lastRowOne_rotAx1 a) (lastRowOne_rotAx2 b)
  · simp only [rotate3_aux, Option.some.injEq] at h
    exact h ▸ lastRowOne_mul (lastRowOne_mul (lastRowOne_rotAx1 a) (lastRowOne_rotAx2 b))
      (lastRowOne_rotAx3 c)

lemma lastRowOne_scale (sd : ℕ) (factors : List ℝ) :
    lastRowOne (create_scale sd factors) := by
  intro j
  rw [create_scale, Matrix.diagonal_apply]
  by_cases hj : j = Fin.last sd
  · subst hj
    simp [Fin.val_last]
  · rw [if_neg (fun h => hj h.symm), if_neg hj]

lemma lastRowOne_translate (sd : ℕ) (shift : List ℝ) :
    lastRowOne (create_translate sd shift) := by
  intro j
  simp only [create_translate, Matrix.of_apply, Fin.val_last]
  rw [if_neg (fun h => lt_irrefl sd h.1)]
  by_cases hj : j = Fin.last sd
  · subst hj
    simp [Fin.val_last]
  · rw [if_neg (fun h => hj (Fin.ext (by simp [Fin.val_last, h.symm]))), if_neg hj]

/-- Claim C9: every matrix returned by `create_rotate`, `create_shear`,
`create_scale` or `create_translate` has bottom row `[0, ..., 0, 1]`, and the
property is preserved by matrix products, so any composition of builder
outputs keeps it. -/
theorem affine_builders_bottom_row :
    (∀ (sd : ℤ) (radians : List ℝ) (M : Matrix (Fin 3) (Fin 3) ℝ),
        create_rotate sd radians = Except.ok (Sum.inl M) → lastRowOne M) ∧
    (∀ (sd : ℤ) (radians : List ℝ) (M : Matrix (Fin 4) (Fin 4) ℝ),
        create_rotate sd radians = Except.ok (Sum.inr (some M)) → lastRowOne M) ∧
    (∀ (sd : ℤ) (coefs : List ℝ) (M : Matrix (Fin 3) (Fin 3) ℝ),
        create_shear sd coefs = Except.ok (Sum.inl M) → lastRowOne M) ∧
    (∀ (sd : ℤ) (coefs : List ℝ) (M : Matrix (Fin 4) (Fin 4) ℝ),
        create_shear sd coefs = Except.ok (Sum.inr M) → lastRowOne M) ∧
    (∀ (sd : ℕ) (factors : List ℝ), lastRowOne (create_scale sd factors)) ∧
    (∀ (sd : ℕ) (shift : List ℝ), lastRowOne (create_translate sd shift)) ∧
    (∀ (n : ℕ) (A B : Matrix (Fin (n + 1)) (Fin (n + 1)) ℝ),
        lastRowOne A → lastRowOne B → lastRowOne (A * B)) := by
  refine ⟨?_, ?_, ?_, ?_, lastRowOne_scale, lastRowOne_translate,
    fun n A B hA hB => lastRowOne_mul hA hB⟩
  · intro sd radians M h
    rw [create_rotate] at h
    split_ifs at h with hc1 hc2
    · simp only [Except.ok.injEq, Sum.inl.injEq] at h
      exact h ▸ lastRowOne_rot2d _
    all_goals simp at h
  · intro sd radians M h
    rw [create_rotate] at h
    split_ifs at h with hc1 hc2
    case pos => simp at h
    case pos =>
      simp only [Except.ok.injEq, Sum.inr.injEq] at h
      exact lastRowOne_rotate3 radians M h
  · intro sd coefs M h
    rw [create_shear] at h
    split_ifs at h with hc1 hc2
    · simp only [Except.ok.injEq, Sum.inl.injEq] at h
      subst h
      intro j
      fin_cases j <;> simp [Fin.last, Matrix.vecHead, Matrix.vecTail]
    all_goals simp at h
  · intro sd coefs M h
    rw [create_shear] at h
    split_ifs at h with hc1 hc2
    case pos => simp at h
    case pos =>
      simp only [Except.ok.injEq, Sum.inr.injEq] at h
      subst h
      intro j
      fin_cases j <;> simp [Fin.last, Matrix.vecHead, Matrix.vecTail]

/-- Witness for C9: the bottom-row entry of a concrete product of a scale and
a translation. -/
theorem affine_builders_bottom_row_witness :
    (create_scale 2 [2, 3] * create_translate 2 [5, 7]) (Fin.last 2) (Fin.last 2) = 1 := by
  have h := affine_builders_bottom_row
  have hrow := h.2.2.2.2.2.2 2 (create_scale 2 [2, 3]) (create_translate 2 [5, 7])
    (h.2.2.2.2.1 2 [2, 3]) (h.2.2.2.2.2.1 2 [5, 7])
  rw [hrow (Fin.last 2), if_pos rfl]

lemma filter_range_eq_single (p : ℕ → Bool) (k n : ℕ) (hk : k < n)
    (hp : ∀ j, p j = true ↔ j = k) : (List.range n).filter p = [k] := by
  induction n with
  | zero => exact absurd hk (Nat.not_lt_zero k)
  | succ m ih =>
    rw [List.range_succ, List.filter_append]
    rcases Nat.lt_or_ge k m with h | h
    · rw [ih h]
      have hm : p m = false := by
        cases hb : p m with
        | false => rfl
        | true => exact absurd ((hp m).mp hb) (by omega)
      simp [List.filter, hm]
    · have hkm : k = m := by omega
      subst hkm
      have hnil : (List.range k).filter p = [] := by
        refine List.filter_eq_nil_iff.mpr fun a ha => ?_
        have halt : a < k := List.mem_range.mp ha
        intro hpa
        exact absurd ((hp a).mp hpa) (by omega)
      have hm : p k = true := (hp k).mpr rfl
      simp [hnil, List.filter, hm]

/-- Counterexample to C2 as stated: with spatial extent 65600 and ROI size
100, `valid_end` is `uint16(65551.0) = 15 < valid_start = 50`; a foreground
draw at flat position 60000 is clamped to `valid_end - 1 = 14`, which violates
the claimed lower bound `valid_start = 50 ≤ c`. -/
theorem crop_centers_wrap_cex :
    generate_pos_neg_label_crop_centers 1 [65600]
        (fun _ j => if j = 60000 then (1 : ℚ) else 0) [100] 1 1 none 0
        (fun _ => 0) (fun _ _ => 0) = Except.ok (false, [[14]]) ∧
    ¬ (validStartSpec 100 ≤ ((14 : ℕ) : ℚ)) := by
  have hfg : fgIndicesOf 1 (List.prod [65600])
      (fun _ j => if j = 60000 then (1 : ℚ) else 0) = [60000] := by
    rw [fgIndicesOf]
    refine filter_range_eq_single _ 60000 _ (by decide) fun j => ?_
    simp only [labelFlatMask, List.range_succ, List.range_zero, List.nil_append, List.any_cons, List.any_nil, Bool.or_false,
      decide_eq_true_eq]
    split_ifs with h
    · simp [h]
    · simp [h]
  have h0bg : (0 : ℕ) ∈ bgIndicesOf 1 (List.prod [65600])
      (fun _ j => if j = 60000 then (1 : ℚ) else 0) none 0 := by
    rw [bgIndicesOf]
    exact List.mem_filter.mpr ⟨List.mem_range.mpr (by decide), by decide⟩
  have hbgne := List.ne_nil_of_mem h0bg
  refine ⟨?_, by decide⟩
  rw [generate_pos_neg_label_crop_centers, if_neg (by decide), if_neg (by decide)]
  dsimp only
  rw [hfg, show (([60000] : List ℕ).isEmpty) = false from rfl, Bool.false_and,
    isEmpty_false_of_ne hbgne]
  rfl

end MonaiTransforms
